import Mathlib

/-!
Verification of the estimator core of the triple-collocation workflow
repository (DOI-USGS/workflow-2023-doore-triple-collocation).

The hard core is `tc_covar` from `TC/TC_function.ipynb`: shape checking,
the sample covariance matrix (`np.cov(X, rowvar=False)`, unbiased divisor
N-1), and the closed-form triple-collocation error-variance formula.
Numpy floating-point values are modelled by `EFloat`: finite values are
exact rationals, and the special values `pinf`, `ninf`, `nan` propagate
through arithmetic following the IEEE-754 conventions for the operations
the code performs.  Signed zero and rounding are not modelled: finite
arithmetic is exact.

The EC solver (`ec_covar`) and the batched driver (`ec_covar_multi`) are
defined in `TC/EC_function.ipynb`, which is not among the source files;
they are modelled from the specification and marked as such.
-/

/-- IEEE-754-style extended value: a finite real (modelled exactly as a
rational), positive infinity, negative infinity, or NaN. -/
inductive EFloat where
  | fin (q : ℚ)
  | pinf
  | ninf
  | nan
deriving DecidableEq

namespace EFloat

/-- Addition with IEEE special-value propagation. -/
def add : EFloat → EFloat → EFloat
  | fin a, fin b => fin (a + b)
  | fin _, pinf => pinf
  | fin _, ninf => ninf
  | pinf, fin _ => pinf
  | ninf, fin _ => ninf
  | pinf, pinf => pinf
  | ninf, ninf => ninf
  | pinf, ninf => nan
  | ninf, pinf => nan
  | nan, _ => nan
  | _, nan => nan

/-- Negation. -/
def neg : EFloat → EFloat
  | fin a => fin (-a)
  | pinf => ninf
  | ninf => pinf
  | nan => nan

/-- Multiplication with IEEE special-value propagation
(`0 * inf = nan`). -/
def mul : EFloat → EFloat → EFloat
  | fin a, fin b => fin (a * b)
  | fin a, pinf => if 0 < a then pinf else if a < 0 then ninf else nan
  | pinf, fin a => if 0 < a then pinf else if a < 0 then ninf else nan
  | fin a, ninf => if 0 < a then ninf else if a < 0 then pinf else nan
  | ninf, fin a => if 0 < a then ninf else if a < 0 then pinf else nan
  | pinf, pinf => pinf
  | ninf, ninf => pinf
  | pinf, ninf => ninf
  | ninf, pinf => ninf
  | nan, _ => nan
  | _, nan => nan

/-- Division with IEEE special-value propagation: a nonzero finite value
divided by zero gives a signed infinity, `0 / 0 = nan` (signed zero is
not modelled). -/
def div : EFloat → EFloat → EFloat
  | fin a, fin b =>
      if b = 0 then (if 0 < a then pinf else if a < 0 then ninf else nan)
      else fin (a / b)
  | fin _, pinf => fin 0
  | fin _, ninf => fin 0
  | pinf, fin b => if 0 ≤ b then pinf else ninf
  | ninf, fin b => if 0 ≤ b then ninf else pinf
  | pinf, pinf => nan
  | pinf, ninf => nan
  | ninf, pinf => nan
  | ninf, ninf => nan
  | nan, _ => nan
  | _, nan => nan

/-- Subtraction, as addition of the negation. -/
def sub (x y : EFloat) : EFloat := add x (neg y)

/-- `isFinite` holds exactly on finite values (`np.isfinite`). -/
def isFinite : EFloat → Bool
  | fin _ => true
  | _ => false

instance : Add EFloat := ⟨add⟩
instance : Neg EFloat := ⟨neg⟩
instance : Sub EFloat := ⟨sub⟩
instance : Mul EFloat := ⟨mul⟩
instance : Div EFloat := ⟨div⟩

theorem fin_add_fin (a b : ℚ) : fin a + fin b = fin (a + b) := rfl

theorem fin_mul_fin (a b : ℚ) : fin a * fin b = fin (a * b) := rfl

theorem fin_sub_fin (a b : ℚ) : fin a - fin b = fin (a - b) := by
  show add (fin a) (neg (fin b)) = fin (a - b)
  simp [add, neg, sub_eq_add_neg]

theorem fin_div_fin (a b : ℚ) (hb : b ≠ 0) : fin a / fin b = fin (a / b) := by
  show div (fin a) (fin b) = fin (a / b)
  simp [div, hb]

theorem div_fin_fin (a b : ℚ) (hb : b ≠ 0) :
    div (fin a) (fin b) = fin (a / b) := by
  simp [div, hb]

/-- Dividing a finite value by (finite) zero never yields a finite value. -/
theorem fin_sub_div_zero_not_finite (a b : ℚ) :
    isFinite (fin a - fin b / fin 0) = false := by
  show isFinite (add (fin a) (neg (div (fin b) (fin 0)))) = false
  rcases lt_trichotomy b 0 with h | h | h
  · simp [div, h, not_lt.mpr h.le, add, neg, isFinite]
  · simp [div, h, add, neg, isFinite]
  · simp [div, h, not_lt.mpr h.le, add, neg, isFinite]

end EFloat

/-- The sample mean of the first `N` values of a series
(`0` when `N = 0`, as rational division by zero is `0`). -/
def meanQ (N : ℕ) (f : ℕ → ℚ) : ℚ := (∑ n in Finset.range N, f n) / N

/-- The centered cross-product sum
`∑ (f n - mean f) * (g n - mean g)` over the first `N` samples: the
numerator of the sample covariance computed by `np.cov`. -/
def cSum (N : ℕ) (f g : ℕ → ℚ) : ℚ :=
  ∑ n in Finset.range N, (f n - meanQ N f) * (g n - meanQ N g)

/-- The unbiased sample covariance (divisor `N - 1`) as an exact
rational; meaningful for `N ≥ 2`. -/
def covQ (N : ℕ) (f g : ℕ → ℚ) : ℚ := cSum N f g / ((N : ℚ) - 1)

/-- The sample covariance as computed by `np.cov(X, rowvar=False)` in
floating point: the centered sum divided by `N - 1`, with float
division semantics (`N = 1` gives `0 / 0 = nan`). -/
def covE (N : ℕ) (f g : ℕ → ℚ) : EFloat :=
  EFloat.div (EFloat.fin (cSum N f g)) (EFloat.fin ((N : ℚ) - 1))

/-- A numpy `ndarray` of real (finite) values: a shape together with the
flat data buffer in C order. -/
structure NDArray where
  shape : List ℕ
  data : List ℚ
deriving DecidableEq

/-- Column `i` of a rank-2 array with `M` columns, as a series indexed by
the row number (out-of-range reads default to `0`; they are never used
on well-formed input). -/
def col (A : NDArray) (M i : ℕ) : ℕ → ℚ := fun n => A.data.getD (n * M + i) 0

/-- The error message raised by `tc_covar` for a non-2-D input. -/
def tcRankMsg (A : NDArray) : String :=
  "X must be a 2D array input. Current number of dimensions: " ++
    toString A.shape.length

/-- The error message raised by `tc_covar` for a trailing dimension other
than 3 (the two f-string pieces are concatenated without a space, as in
the source). -/
def tcColMsg (A : NDArray) : String :=
  "X must have a trailing dimension of length 3." ++
    "Current trailing dimension length: " ++ toString (A.shape.getD 1 0)

/-- `tc_covar` from `TC/TC_function.ipynb`: validates that the input is a
2-D array with trailing dimension 3, computes the covariance matrix with
`np.cov(X, rowvar=False)`, and returns the three closed-form
triple-collocation error-variance estimates.  A Python `ValueError` is
modelled as `Except.error` carrying the message. -/
def tc_covar (A : NDArray) : Except String (List EFloat) :=
  if A.shape.length ≠ 2 then
    Except.error (tcRankMsg A)
  else if A.shape.getD 1 0 ≠ 3 then
    Except.error (tcColMsg A)
  else
    let N := A.shape.getD 0 0
    let c := fun i j => covE N (col A 3 i) (col A 3 j)
    Except.ok
      [ c 0 0 - c 0 1 * c 0 2 / c 1 2,
        c 1 1 - c 0 1 * c 1 2 / c 0 2,
        c 2 2 - c 0 2 * c 1 2 / c 0 1 ]

/-- The unbiased sample variance of a series (divisor `N - 1`). -/
def sampleVar (N : ℕ) (f : ℕ → ℚ) : ℚ :=
  (∑ n in Finset.range N, (f n - meanQ N f) ^ 2) / ((N : ℚ) - 1)

theorem cSum_symm (N : ℕ) (f g : ℕ → ℚ) : cSum N f g = cSum N g f := by
  unfold cSum
  exact Finset.sum_congr rfl fun n _ => mul_comm _ _

theorem covE_symm (N : ℕ) (f g : ℕ → ℚ) : covE N f g = covE N g f := by
  unfold covE
  rw [cSum_symm]

theorem covQ_symm (N : ℕ) (f g : ℕ → ℚ) : covQ N f g = covQ N g f := by
  unfold covQ
  rw [cSum_symm]

/-- With at least two samples the float sample covariance is the exact
rational sample covariance. -/
theorem covE_eq_fin (N : ℕ) (f g : ℕ → ℚ) (hN : 2 ≤ N) :
    covE N f g = EFloat.fin (covQ N f g) := by
  have h2 : (2 : ℚ) ≤ (N : ℚ) := by exact_mod_cast hN
  have h : ((N : ℚ) - 1) ≠ 0 := by linarith
  simp [covE, covQ, EFloat.div, h]

/-- With a single sample the covariance computation is `0 / 0 = nan`. -/
theorem covE_one (f g : ℕ → ℚ) : covE 1 f g = EFloat.nan := by
  have h : cSum 1 f g = 0 := by simp [cSum, meanQ]
  simp [covE, h, EFloat.div]

theorem nan_entry_eval :
    EFloat.nan - EFloat.nan * EFloat.nan / EFloat.nan = EFloat.nan := rfl

/-- On any input passing the shape checks, `tc_covar` returns the three
closed-form expressions over the float covariance entries. -/
theorem tc_covar_ok (A : NDArray) (N : ℕ) (h : A.shape = [N, 3]) :
    tc_covar A = Except.ok
      [ covE N (col A 3 0) (col A 3 0) -
          covE N (col A 3 0) (col A 3 1) * covE N (col A 3 0) (col A 3 2) /
            covE N (col A 3 1) (col A 3 2),
        covE N (col A 3 1) (col A 3 1) -
          covE N (col A 3 0) (col A 3 1) * covE N (col A 3 1) (col A 3 2) /
            covE N (col A 3 0) (col A 3 2),
        covE N (col A 3 2) (col A 3 2) -
          covE N (col A 3 0) (col A 3 2) * covE N (col A 3 1) (col A 3 2) /
            covE N (col A 3 0) (col A 3 1) ] := by
  simp [tc_covar, h]

/-- With `N ≥ 2` samples and the three off-diagonal covariances nonzero,
`tc_covar` returns the exact rational closed-form estimates. -/
theorem tc_covar_fin_form (A : NDArray) (N : ℕ) (h : A.shape = [N, 3]) (hN : 2 ≤ N)
    (h12 : covQ N (col A 3 1) (col A 3 2) ≠ 0)
    (h02 : covQ N (col A 3 0) (col A 3 2) ≠ 0)
    (h01 : covQ N (col A 3 0) (col A 3 1) ≠ 0) :
    tc_covar A = Except.ok
      [ EFloat.fin (covQ N (col A 3 0) (col A 3 0) -
          covQ N (col A 3 0) (col A 3 1) * covQ N (col A 3 0) (col A 3 2) /
            covQ N (col A 3 1) (col A 3 2)),
        EFloat.fin (covQ N (col A 3 1) (col A 3 1) -
          covQ N (col A 3 0) (col A 3 1) * covQ N (col A 3 1) (col A 3 2) /
            covQ N (col A 3 0) (col A 3 2)),
        EFloat.fin (covQ N (col A 3 2) (col A 3 2) -
          covQ N (col A 3 0) (col A 3 2) * covQ N (col A 3 1) (col A 3 2) /
            covQ N (col A 3 0) (col A 3 1)) ] := by
  rw [tc_covar_ok A N h]
  rw [covE_eq_fin N _ _ hN, covE_eq_fin N _ _ hN, covE_eq_fin N _ _ hN,
    covE_eq_fin N _ _ hN, covE_eq_fin N _ _ hN, covE_eq_fin N _ _ hN]
  rw [EFloat.fin_mul_fin, EFloat.fin_div_fin _ _ h12, EFloat.fin_sub_fin,
    EFloat.fin_mul_fin, EFloat.fin_div_fin _ _ h02, EFloat.fin_sub_fin,
    EFloat.fin_mul_fin, EFloat.fin_div_fin _ _ h01, EFloat.fin_sub_fin]

/-- A concrete 4-sample, 3-system input whose TC estimate for system 0 is
negative (-2/9) while all three covariance denominators are nonzero. -/
def arrNeg : NDArray := ⟨[4, 3], [1, 2, 2, -1, -2, -2, 0, 1, -1, 0, -1, 1]⟩

/-- A concrete 2-sample, 3-system input whose column 1 is constant, so the
covariances covar[0,1] and covar[1,2] are zero. -/
def arrZeroDen : NDArray := ⟨[2, 3], [0, 0, 0, 1, 0, 1]⟩

/-- C1: for every 2-D input with exactly 3 columns whose sample covariance
matrix has nonzero entries covar[1,2], covar[0,2], covar[0,1] (with N ≥ 2
samples so the covariance matrix is defined), `tc_covar` returns exactly
the closed-form TC vector
[covar[0,0] - covar[0,1]*covar[0,2]/covar[1,2],
 covar[1,1] - covar[0,1]*covar[1,2]/covar[0,2],
 covar[2,2] - covar[0,2]*covar[1,2]/covar[0,1]]. -/
theorem tc_covar_closed_form (A : NDArray) (N : ℕ) (h : A.shape = [N, 3]) (hN : 2 ≤ N)
    (h12 : covQ N (col A 3 1) (col A 3 2) ≠ 0)
    (h02 : covQ N (col A 3 0) (col A 3 2) ≠ 0)
    (h01 : covQ N (col A 3 0) (col A 3 1) ≠ 0) :
    tc_covar A = Except.ok
      [ EFloat.fin (covQ N (col A 3 0) (col A 3 0) -
          covQ N (col A 3 0) (col A 3 1) * covQ N (col A 3 0) (col A 3 2) /
            covQ N (col A 3 1) (col A 3 2)),
        EFloat.fin (covQ N (col A 3 1) (col A 3 1) -
          covQ N (col A 3 0) (col A 3 1) * covQ N (col A 3 1) (col A 3 2) /
            covQ N (col A 3 0) (col A 3 2)),
        EFloat.fin (covQ N (col A 3 2) (col A 3 2) -
          covQ N (col A 3 0) (col A 3 2) * covQ N (col A 3 1) (col A 3 2) /
            covQ N (col A 3 0) (col A 3 1)) ] :=
  tc_covar_fin_form A N h hN h12 h02 h01

/-- Witness for C1 at the concrete input `arrNeg`. -/
theorem tc_covar_closed_form_witness :
    arrNeg.shape = [4, 3] ∧ 2 ≤ 4 ∧
    tc_covar arrNeg = Except.ok
      [ EFloat.fin (covQ 4 (col arrNeg 3 0) (col arrNeg 3 0) -
          covQ 4 (col arrNeg 3 0) (col arrNeg 3 1) * covQ 4 (col arrNeg 3 0) (col arrNeg 3 2) /
            covQ 4 (col arrNeg 3 1) (col arrNeg 3 2)),
        EFloat.fin (covQ 4 (col arrNeg 3 1) (col arrNeg 3 1) -
          covQ 4 (col arrNeg 3 0) (col arrNeg 3 1) * covQ 4 (col arrNeg 3 1) (col arrNeg 3 2) /
            covQ 4 (col arrNeg 3 0) (col arrNeg 3 2)),
        EFloat.fin (covQ 4 (col arrNeg 3 2) (col arrNeg 3 2) -
          covQ 4 (col arrNeg 3 0) (col arrNeg 3 2) * covQ 4 (col arrNeg 3 1) (col arrNeg 3 2) /
            covQ 4 (col arrNeg 3 0) (col arrNeg 3 1)) ] :=
  ⟨rfl, by norm_num,
    tc_covar_closed_form arrNeg 4 rfl (by norm_num)
      (by norm_num [covQ, cSum, meanQ, col, arrNeg, Finset.sum_range_succ, List.getD])
      (by norm_num [covQ, cSum, meanQ, col, arrNeg, Finset.sum_range_succ, List.getD])
      (by norm_num [covQ, cSum, meanQ, col, arrNeg, Finset.sum_range_succ, List.getD])⟩

/-- C2: `tc_covar` fails with a descriptive error exactly when the input is
not 2-dimensional or its trailing axis length is not 3 (the three cases
below are exhaustive): the rank error and the trailing-dimension error
carry the messages from the source, and every rank-2 input with 3 columns
produces a length-3 result with no error. -/
theorem tc_covar_shape_guard (A : NDArray) :
    (A.shape.length ≠ 2 → tc_covar A = Except.error (tcRankMsg A)) ∧
    (A.shape.length = 2 → A.shape.getD 1 0 ≠ 3 →
      tc_covar A = Except.error (tcColMsg A)) ∧
    (A.shape.length = 2 → A.shape.getD 1 0 = 3 →
      ∃ l, tc_covar A = Except.ok l ∧ l.length = 3) := by
  refine ⟨?_, ?_, ?_⟩
  · intro h1
    unfold tc_covar
    rw [if_pos h1]
  · intro h1 h2
    unfold tc_covar
    rw [if_neg (not_not_intro h1), if_pos h2]
  · intro h1 h2
    unfold tc_covar
    rw [if_neg (not_not_intro h1), if_neg (not_not_intro h2)]
    exact ⟨_, rfl, rfl⟩

/-- Witness for C2: a rank-1 input is rejected with the rank message. -/
theorem tc_covar_shape_guard_witness :
    tc_covar ⟨[3], [1, 2, 3]⟩ =
      Except.error (tcRankMsg ⟨[3], [1, 2, 3]⟩) :=
  (tc_covar_shape_guard ⟨[3], [1, 2, 3]⟩).1 (by simp)

/-- C4: with N ≥ 2 samples and 3 columns, `tc_covar` raises no exception;
if one of the off-diagonal covariances used as a denominator is zero, the
corresponding output entry is a non-finite float, surfaced to the caller. -/
theorem tc_covar_zero_denominator (A : NDArray) (N : ℕ) (h : A.shape = [N, 3])
    (hN : 2 ≤ N) :
    ∃ l, tc_covar A = Except.ok l ∧ l.length = 3 ∧
      (covQ N (col A 3 1) (col A 3 2) = 0 →
        (l.getD 0 EFloat.nan).isFinite = false) ∧
      (covQ N (col A 3 0) (col A 3 2) = 0 →
        (l.getD 1 EFloat.nan).isFinite = false) ∧
      (covQ N (col A 3 0) (col A 3 1) = 0 →
        (l.getD 2 EFloat.nan).isFinite = false) := by
  refine ⟨_, tc_covar_ok A N h, rfl, ?_, ?_, ?_⟩ <;> intro hz
  · have e12 : covE N (col A 3 1) (col A 3 2) = EFloat.fin 0 := by
      rw [covE_eq_fin N _ _ hN, hz]
    simp only [List.getD_cons_zero]
    rw [e12, covE_eq_fin N _ _ hN, covE_eq_fin N _ _ hN, covE_eq_fin N _ _ hN,
      EFloat.fin_mul_fin]
    exact EFloat.fin_sub_div_zero_not_finite _ _
  · have e02 : covE N (col A 3 0) (col A 3 2) = EFloat.fin 0 := by
      rw [covE_eq_fin N _ _ hN, hz]
    simp only [List.getD_cons_succ, List.getD_cons_zero]
    rw [e02, covE_eq_fin N _ _ hN, covE_eq_fin N _ _ hN, covE_eq_fin N _ _ hN,
      EFloat.fin_mul_fin]
    exact EFloat.fin_sub_div_zero_not_finite _ _
  · have e01 : covE N (col A 3 0) (col A 3 1) = EFloat.fin 0 := by
      rw [covE_eq_fin N _ _ hN, hz]
    simp only [List.getD_cons_succ, List.getD_cons_zero]
    rw [e01, covE_eq_fin N _ _ hN, covE_eq_fin N _ _ hN, covE_eq_fin N _ _ hN,
      EFloat.fin_mul_fin]
    exact EFloat.fin_sub_div_zero_not_finite _ _

/-- Witness for C4 at `arrZeroDen` (covar[1,2] = 0 there). -/
theorem tc_covar_zero_denominator_witness :
    ∃ l, tc_covar arrZeroDen = Except.ok l ∧ l.length = 3 ∧
      (covQ 2 (col arrZeroDen 3 1) (col arrZeroDen 3 2) = 0 →
        (l.getD 0 EFloat.nan).isFinite = false) ∧
      (covQ 2 (col arrZeroDen 3 0) (col arrZeroDen 3 2) = 0 →
        (l.getD 1 EFloat.nan).isFinite = false) ∧
      (covQ 2 (col arrZeroDen 3 0) (col arrZeroDen 3 1) = 0 →
        (l.getD 2 EFloat.nan).isFinite = false) :=
  tc_covar_zero_denominator arrZeroDen 2 rfl (by norm_num)

/-- C5: when all three denominators are nonzero, `tc_covar` raises no
error, and any output entry whose algebraic value
sigma_ii - sigma_ij*sigma_ik/sigma_jk is negative is returned exactly as
that negative finite value in the corresponding entry — for each of the
three cyclic entries, with no clamping and no substitution. -/
theorem tc_covar_negative_passthrough (A : NDArray) (N : ℕ) (h : A.shape = [N, 3])
    (hN : 2 ≤ N)
    (h12 : covQ N (col A 3 1) (col A 3 2) ≠ 0)
    (h02 : covQ N (col A 3 0) (col A 3 2) ≠ 0)
    (h01 : covQ N (col A 3 0) (col A 3 1) ≠ 0) :
    ∃ l, tc_covar A = Except.ok l ∧
      (covQ N (col A 3 0) (col A 3 0) -
          covQ N (col A 3 0) (col A 3 1) * covQ N (col A 3 0) (col A 3 2) /
            covQ N (col A 3 1) (col A 3 2) < 0 →
        l.getD 0 EFloat.nan =
          EFloat.fin (covQ N (col A 3 0) (col A 3 0) -
            covQ N (col A 3 0) (col A 3 1) * covQ N (col A 3 0) (col A 3 2) /
              covQ N (col A 3 1) (col A 3 2))) ∧
      (covQ N (col A 3 1) (col A 3 1) -
          covQ N (col A 3 0) (col A 3 1) * covQ N (col A 3 1) (col A 3 2) /
            covQ N (col A 3 0) (col A 3 2) < 0 →
        l.getD 1 EFloat.nan =
          EFloat.fin (covQ N (col A 3 1) (col A 3 1) -
            covQ N (col A 3 0) (col A 3 1) * covQ N (col A 3 1) (col A 3 2) /
              covQ N (col A 3 0) (col A 3 2))) ∧
      (covQ N (col A 3 2) (col A 3 2) -
          covQ N (col A 3 0) (col A 3 2) * covQ N (col A 3 1) (col A 3 2) /
            covQ N (col A 3 0) (col A 3 1) < 0 →
        l.getD 2 EFloat.nan =
          EFloat.fin (covQ N (col A 3 2) (col A 3 2) -
            covQ N (col A 3 0) (col A 3 2) * covQ N (col A 3 1) (col A 3 2) /
              covQ N (col A 3 0) (col A 3 1))) :=
  ⟨_, tc_covar_fin_form A N h hN h12 h02 h01,
    fun _ => rfl, fun _ => rfl, fun _ => rfl⟩

/-- Witness for C5 at `arrNeg`, whose first estimate is -2/9 (negative, so
the passthrough implication for entry 0 is exercised non-vacuously). -/
theorem tc_covar_negative_passthrough_witness :
    covQ 4 (col arrNeg 3 0) (col arrNeg 3 0) -
        covQ 4 (col arrNeg 3 0) (col arrNeg 3 1) * covQ 4 (col arrNeg 3 0) (col arrNeg 3 2) /
          covQ 4 (col arrNeg 3 1) (col arrNeg 3 2) < 0 ∧
    (∃ l, tc_covar arrNeg = Except.ok l ∧
      (covQ 4 (col arrNeg 3 0) (col arrNeg 3 0) -
          covQ 4 (col arrNeg 3 0) (col arrNeg 3 1) * covQ 4 (col arrNeg 3 0) (col arrNeg 3 2) /
            covQ 4 (col arrNeg 3 1) (col arrNeg 3 2) < 0 →
        l.getD 0 EFloat.nan =
          EFloat.fin (covQ 4 (col arrNeg 3 0) (col arrNeg 3 0) -
            covQ 4 (col arrNeg 3 0) (col arrNeg 3 1) * covQ 4 (col arrNeg 3 0) (col arrNeg 3 2) /
              covQ 4 (col arrNeg 3 1) (col arrNeg 3 2))) ∧
      (covQ 4 (col arrNeg 3 1) (col arrNeg 3 1) -
          covQ 4 (col arrNeg 3 0) (col arrNeg 3 1) * covQ 4 (col arrNeg 3 1) (col arrNeg 3 2) /
            covQ 4 (col arrNeg 3 0) (col arrNeg 3 2) < 0 →
        l.getD 1 EFloat.nan =
          EFloat.fin (covQ 4 (col arrNeg 3 1) (col arrNeg 3 1) -
            covQ 4 (col arrNeg 3 0) (col arrNeg 3 1) * covQ 4 (col arrNeg 3 1) (col arrNeg 3 2) /
              covQ 4 (col arrNeg 3 0) (col arrNeg 3 2))) ∧
      (covQ 4 (col arrNeg 3 2) (col arrNeg 3 2) -
          covQ 4 (col arrNeg 3 0) (col arrNeg 3 2) * covQ 4 (col arrNeg 3 1) (col arrNeg 3 2) /
            covQ 4 (col arrNeg 3 0) (col arrNeg 3 1) < 0 →
        l.getD 2 EFloat.nan =
          EFloat.fin (covQ 4 (col arrNeg 3 2) (col arrNeg 3 2) -
            covQ 4 (col arrNeg 3 0) (col arrNeg 3 2) * covQ 4 (col arrNeg 3 1) (col arrNeg 3 2) /
              covQ 4 (col arrNeg 3 0) (col arrNeg 3 1)))) :=
  ⟨by norm_num [covQ, cSum, meanQ, col, arrNeg, Finset.sum_range_succ, List.getD],
   tc_covar_negative_passthrough arrNeg 4 rfl (by norm_num)
    (by norm_num [covQ, cSum, meanQ, col, arrNeg, Finset.sum_range_succ, List.getD])
    (by norm_num [covQ, cSum, meanQ, col, arrNeg, Finset.sum_range_succ, List.getD])
    (by norm_num [covQ, cSum, meanQ, col, arrNeg, Finset.sum_range_succ, List.getD])⟩

/-- C9: `tc_covar` is deterministic: equal inputs give equal outputs (the
embedding is a pure function with no state, randomness, or mutation). -/
theorem tc_covar_deterministic (A B : NDArray) (h : A = B) :
    tc_covar A = tc_covar B := by
  rw [h]

/-- Witness for C9 at a concrete input. -/
theorem tc_covar_deterministic_witness :
    tc_covar arrNeg = tc_covar arrNeg :=
  tc_covar_deterministic arrNeg arrNeg rfl

/-- C10: the N ≥ 2 precondition is not enforced: a single-row input with 3
columns passes the shape checks and returns a length-3 vector whose
entries are all NaN (non-finite), because the unbiased divisor N - 1 is
zero. -/
theorem tc_covar_single_row (A : NDArray) (h : A.shape = [1, 3]) :
    tc_covar A = Except.ok [EFloat.nan, EFloat.nan, EFloat.nan] ∧
    EFloat.nan.isFinite = false := by
  refine ⟨?_, rfl⟩
  rw [tc_covar_ok A 1 h]
  simp only [covE_one, nan_entry_eval]

/-- Witness for C10 at a concrete single-row input. -/
theorem tc_covar_single_row_witness :
    tc_covar ⟨[1, 3], [5, 6, 7]⟩ =
      Except.ok [EFloat.nan, EFloat.nan, EFloat.nan] ∧
    EFloat.nan.isFinite = false :=
  tc_covar_single_row ⟨[1, 3], [5, 6, 7]⟩ rfl

theorem getD_map_range {α : Type} (d : α) (L q : ℕ) (f : ℕ → α) (h : q < L) :
    ((List.range L).map f).getD q d = f q := by
  rw [List.getD_eq_getElem?_getD, List.getElem?_map, List.getElem?_range h]
  rfl

/-- C3: the covariance entries used by the solvers are the unbiased sample
covariances: entry (i,j) is the centered product sum divided by N - 1, the
matrix is exactly symmetric, and the diagonal entries are the sample
variances of the columns. -/
theorem cov_builder_props (A : NDArray) (N M i j : ℕ) (hN : 2 ≤ N) :
    covE N (col A M i) (col A M j) =
      EFloat.fin ((∑ n in Finset.range N,
        (col A M i n - meanQ N (col A M i)) * (col A M j n - meanQ N (col A M j))) /
        ((N : ℚ) - 1)) ∧
    covE N (col A M i) (col A M j) = covE N (col A M j) (col A M i) ∧
    covE N (col A M i) (col A M i) = EFloat.fin (sampleVar N (col A M i)) := by
  refine ⟨?_, covE_symm N _ _, ?_⟩
  · rw [covE_eq_fin N _ _ hN]
    rfl
  · rw [covE_eq_fin N _ _ hN]
    unfold covQ cSum sampleVar
    congr 1
    congr 1
    exact Finset.sum_congr rfl fun n _ =>
      (pow_two (col A M i n - meanQ N (col A M i))).symm

/-- Witness for C3 on a concrete column pair of `arrNeg`. -/
theorem cov_builder_props_witness :
    covE 4 (col arrNeg 3 0) (col arrNeg 3 1) =
      EFloat.fin ((∑ n in Finset.range 4,
        (col arrNeg 3 0 n - meanQ 4 (col arrNeg 3 0)) *
          (col arrNeg 3 1 n - meanQ 4 (col arrNeg 3 1))) / ((4 : ℚ) - 1)) ∧
    covE 4 (col arrNeg 3 0) (col arrNeg 3 1) = covE 4 (col arrNeg 3 1) (col arrNeg 3 0) ∧
    covE 4 (col arrNeg 3 0) (col arrNeg 3 0) = EFloat.fin (sampleVar 4 (col arrNeg 3 0)) :=
  cov_builder_props arrNeg 4 3 0 1 (by norm_num)

theorem meanQ_congr (N : ℕ) (f f' : ℕ → ℚ) (h : ∀ n < N, f n = f' n) :
    meanQ N f = meanQ N f' := by
  unfold meanQ
  congr 1
  exact Finset.sum_congr rfl fun n hn => h n (Finset.mem_range.mp hn)

theorem cSum_congr (N : ℕ) (f f' g g' : ℕ → ℚ) (hf : ∀ n < N, f n = f' n)
    (hg : ∀ n < N, g n = g' n) : cSum N f g = cSum N f' g' := by
  unfold cSum
  rw [meanQ_congr N f f' hf, meanQ_congr N g g' hg]
  exact Finset.sum_congr rfl fun n hn => by
    rw [hf n (Finset.mem_range.mp hn), hg n (Finset.mem_range.mp hn)]

theorem covE_congr (N : ℕ) (f f' g g' : ℕ → ℚ) (hf : ∀ n < N, f n = f' n)
    (hg : ∀ n < N, g n = g' n) : covE N f g = covE N f' g' := by
  unfold covE
  rw [cSum_congr N f f' g g' hf hg]

theorem meanQ_affine (N : ℕ) (hN : 0 < N) (a b : ℚ) (t e : ℕ → ℚ) :
    meanQ N (fun n => a + b * t n + e n) = a + b * meanQ N t + meanQ N e := by
  have hN' : (N : ℚ) ≠ 0 := Nat.cast_ne_zero.mpr hN.ne'
  unfold meanQ
  rw [Finset.sum_add_distrib, Finset.sum_add_distrib, ← Finset.mul_sum,
    Finset.sum_const, Finset.card_range, nsmul_eq_mul]
  field_simp
  ring

theorem cSum_affine (N : ℕ) (hN : 0 < N) (a b : ℚ) (t e g : ℕ → ℚ) :
    cSum N (fun n => a + b * t n + e n) g = b * cSum N t g + cSum N e g := by
  unfold cSum
  rw [meanQ_affine N hN a b t e]
  rw [Finset.mul_sum, ← Finset.sum_add_distrib]
  exact Finset.sum_congr rfl fun n _ => by ring

/-- Bilinear expansion of the centered sum of two affine observation
columns `alpha + beta * t + eps`. -/
theorem cSum_affine2 (N : ℕ) (hN : 0 < N) (a1 b1 a2 b2 : ℚ) (t e1 e2 : ℕ → ℚ) :
    cSum N (fun n => a1 + b1 * t n + e1 n) (fun n => a2 + b2 * t n + e2 n) =
      b1 * b2 * cSum N t t + b1 * cSum N t e2 + b2 * cSum N t e1 + cSum N e1 e2 := by
  rw [cSum_affine N hN a1 b1 t e1 (fun n => a2 + b2 * t n + e2 n)]
  rw [cSum_symm N t (fun n => a2 + b2 * t n + e2 n),
    cSum_affine N hN a2 b2 t e2 t]
  rw [cSum_symm N e1 (fun n => a2 + b2 * t n + e2 n),
    cSum_affine N hN a2 b2 t e2 e1]
  rw [cSum_symm N e2 t, cSum_symm N e2 e1]
  ring

theorem cSum_const_add (N : ℕ) (hN : 0 < N) (c : ℚ) (f g : ℕ → ℚ) :
    cSum N (fun n => c + f n) g = cSum N f g := by
  have hN' : (N : ℚ) ≠ 0 := Nat.cast_ne_zero.mpr hN.ne'
  have hm : meanQ N (fun n => c + f n) = c + meanQ N f := by
    unfold meanQ
    rw [Finset.sum_add_distrib, Finset.sum_const, Finset.card_range, nsmul_eq_mul]
    field_simp
    ring
  unfold cSum
  rw [hm]
  exact Finset.sum_congr rfl fun n _ => by ring

/-- Per-system constant shift of a 3-column observation array
(`X + a`, broadcast along rows). -/
def addConst3 (A : NDArray) (a : ℕ → ℚ) : NDArray :=
  ⟨A.shape, (List.range A.data.length).map fun q => a (q % 3) + A.data.getD q 0⟩

theorem col_addConst3 (A : NDArray) (a : ℕ → ℚ) (N i n : ℕ)
    (hwf : A.data.length = N * 3) (hi : i < 3) (hn : n < N) :
    col (addConst3 A a) 3 i n = a i + col A 3 i n := by
  unfold col addConst3
  rw [getD_map_range]
  · have hmod : (n * 3 + i) % 3 = i := by omega
    rw [hmod]
  · omega

/-- The deterministic assembly step of `generate_sample` from the randomized
data example notebook: `x = alpha + beta * t.reshape((nsamples, 1)) + errors`
for three systems, with the signal `t` and the error draws `e` taken as
parameters (the random generation itself is the caller's concern). -/
def genArr (alph bet : ℕ → ℚ) (t : ℕ → ℚ) (e : ℕ → ℕ → ℚ) (N : ℕ) : NDArray :=
  ⟨[N, 3], (List.range (N * 3)).map fun q =>
    alph (q % 3) + bet (q % 3) * t (q / 3) + e (q / 3) (q % 3)⟩

theorem col_genArr (alph bet : ℕ → ℚ) (t : ℕ → ℚ) (e : ℕ → ℕ → ℚ) (N i n : ℕ)
    (hi : i < 3) (hn : n < N) :
    col (genArr alph bet t e N) 3 i n = alph i + bet i * t n + e n i := by
  unfold col genArr
  rw [getD_map_range]
  · have h1 : (n * 3 + i) % 3 = i := by omega
    have h2 : (n * 3 + i) / 3 = n := by omega
    rw [h1, h2]
  · omega

theorem tc_covar_addConst3 (A : NDArray) (N : ℕ) (a : ℕ → ℚ) (h : A.shape = [N, 3])
    (hwf : A.data.length = N * 3) (hN : 0 < N) :
    tc_covar (addConst3 A a) = tc_covar A := by
  have hsh : (addConst3 A a).shape = [N, 3] := h
  rw [tc_covar_ok (addConst3 A a) N hsh, tc_covar_ok A N h]
  have key : ∀ i j, i < 3 → j < 3 →
      covE N (col (addConst3 A a) 3 i) (col (addConst3 A a) 3 j) =
        covE N (col A 3 i) (col A 3 j) := by
    intro i j hi hj
    rw [covE_congr N _ (fun n => a i + col A 3 i n) _ (fun n => a j + col A 3 j n)
      (fun n hn => col_addConst3 A a N i n hwf hi hn)
      (fun n hn => col_addConst3 A a N j n hwf hj hn)]
    have hc : cSum N (fun n => a i + col A 3 i n) (fun n => a j + col A 3 j n) =
        cSum N (col A 3 i) (col A 3 j) := by
      rw [cSum_const_add N hN (a i) (col A 3 i) (fun n => a j + col A 3 j n)]
      rw [cSum_symm N (col A 3 i) (fun n => a j + col A 3 j n)]
      rw [cSum_const_add N hN (a j) (col A 3 j) (col A 3 i)]
      exact cSum_symm N (col A 3 j) (col A 3 i)
    unfold covE
    rw [hc]
  rw [key 0 0 (by norm_num) (by norm_num), key 0 1 (by norm_num) (by norm_num),
    key 0 2 (by norm_num) (by norm_num), key 1 2 (by norm_num) (by norm_num),
    key 1 1 (by norm_num) (by norm_num), key 2 2 (by norm_num) (by norm_num)]

/-- Under exact empirical orthogonality of signal and errors (and of the
errors among themselves), the TC estimates of a generated sample depend
only on the error series, not on `alpha` or `beta`. -/
theorem tc_covar_genArr (N : ℕ) (t : ℕ → ℚ) (e : ℕ → ℕ → ℚ) (alph bet : ℕ → ℚ)
    (hN : 2 ≤ N)
    (ht0 : cSum N t (fun n => e n 0) = 0)
    (ht1 : cSum N t (fun n => e n 1) = 0)
    (ht2 : cSum N t (fun n => e n 2) = 0)
    (he01 : cSum N (fun n => e n 0) (fun n => e n 1) = 0)
    (he02 : cSum N (fun n => e n 0) (fun n => e n 2) = 0)
    (he12 : cSum N (fun n => e n 1) (fun n => e n 2) = 0)
    (hs : cSum N t t ≠ 0)
    (hb0 : bet 0 ≠ 0) (hb1 : bet 1 ≠ 0) (hb2 : bet 2 ≠ 0) :
    tc_covar (genArr alph bet t e N) = Except.ok
      [ EFloat.fin (covQ N (fun n => e n 0) (fun n => e n 0)),
        EFloat.fin (covQ N (fun n => e n 1) (fun n => e n 1)),
        EFloat.fin (covQ N (fun n => e n 2) (fun n => e n 2)) ] := by
  have hN0 : 0 < N := by omega
  have hD : ((N : ℚ) - 1) ≠ 0 := by
    have h2 : (2 : ℚ) ≤ (N : ℚ) := by exact_mod_cast hN
    linarith
  set G := genArr alph bet t e N with hG
  have hcs : ∀ i j, i < 3 → j < 3 →
      cSum N (col G 3 i) (col G 3 j) =
        bet i * bet j * cSum N t t + bet i * cSum N t (fun n => e n j) +
          bet j * cSum N t (fun n => e n i) +
          cSum N (fun n => e n i) (fun n => e n j) := by
    intro i j hi hj
    rw [cSum_congr N _ (fun n => alph i + bet i * t n + e n i) _
      (fun n => alph j + bet j * t n + e n j)
      (fun n hn => col_genArr alph bet t e N i n hi hn)
      (fun n hn => col_genArr alph bet t e N j n hj hn)]
    exact cSum_affine2 N hN0 (alph i) (bet i) (alph j) (bet j) t
      (fun n => e n i) (fun n => e n j)
  have c00 : cSum N (col G 3 0) (col G 3 0) =
      bet 0 * bet 0 * cSum N t t + cSum N (fun n => e n 0) (fun n => e n 0) := by
    rw [hcs 0 0 (by norm_num) (by norm_num), ht0]
    ring
  have c11 : cSum N (col G 3 1) (col G 3 1) =
      bet 1 * bet 1 * cSum N t t + cSum N (fun n => e n 1) (fun n => e n 1) := by
    rw [hcs 1 1 (by norm_num) (by norm_num), ht1]
    ring
  have c22 : cSum N (col G 3 2) (col G 3 2) =
      bet 2 * bet 2 * cSum N t t + cSum N (fun n => e n 2) (fun n => e n 2) := by
    rw [hcs 2 2 (by norm_num) (by norm_num), ht2]
    ring
  have c01 : cSum N (col G 3 0) (col G 3 1) = bet 0 * bet 1 * cSum N t t := by
    rw [hcs 0 1 (by norm_num) (by norm_num), ht0, ht1, he01]
    ring
  have c02 : cSum N (col G 3 0) (col G 3 2) = bet 0 * bet 2 * cSum N t t := by
    rw [hcs 0 2 (by norm_num) (by norm_num), ht0, ht2, he02]
    ring
  have c12 : cSum N (col G 3 1) (col G 3 2) = bet 1 * bet 2 * cSum N t t := by
    rw [hcs 1 2 (by norm_num) (by norm_num), ht1, ht2, he12]
    ring
  have hq12 : covQ N (col G 3 1) (col G 3 2) ≠ 0 := by
    unfold covQ
    rw [c12]
    exact div_ne_zero (mul_ne_zero (mul_ne_zero hb1 hb2) hs) hD
  have hq02 : covQ N (col G 3 0) (col G 3 2) ≠ 0 := by
    unfold covQ
    rw [c02]
    exact div_ne_zero (mul_ne_zero (mul_ne_zero hb0 hb2) hs) hD
  have hq01 : covQ N (col G 3 0) (col G 3 1) ≠ 0 := by
    unfold covQ
    rw [c01]
    exact div_ne_zero (mul_ne_zero (mul_ne_zero hb0 hb1) hs) hD
  rw [tc_covar_fin_form G N (by rw [hG]; rfl) hN hq12 hq02 hq01]
  have key0 : covQ N (col G 3 0) (col G 3 0) -
      covQ N (col G 3 0) (col G 3 1) * covQ N (col G 3 0) (col G 3 2) /
        covQ N (col G 3 1) (col G 3 2) =
      covQ N (fun n => e n 0) (fun n => e n 0) := by
    unfold covQ
    rw [c00, c01, c02, c12]
    field_simp
    ring
  have key1 : covQ N (col G 3 1) (col G 3 1) -
      covQ N (col G 3 0) (col G 3 1) * covQ N (col G 3 1) (col G 3 2) /
        covQ N (col G 3 0) (col G 3 2) =
      covQ N (fun n => e n 1) (fun n => e n 1) := by
    unfold covQ
    rw [c11, c01, c12, c02]
    field_simp
    ring
  have key2 : covQ N (col G 3 2) (col G 3 2) -
      covQ N (col G 3 0) (col G 3 2) * covQ N (col G 3 1) (col G 3 2) /
        covQ N (col G 3 0) (col G 3 1) =
      covQ N (fun n => e n 2) (fun n => e n 2) := by
    unfold covQ
    rw [c22, c02, c12, c01]
    field_simp
    ring
  rw [key0, key1, key2]

/-- The true signal of the C8 counterexample: t = (0, 1, 2). -/
def tCx : ℕ → ℚ := fun n => [0, 1, 2].getD n 0

/-- The error draws of the C8 counterexample: the 3 x 3 identity. -/
def eCx : ℕ → ℕ → ℚ := fun n i => if n = i then 1 else 0

/-- C8 counterexample: with the signal and errors fixed, changing only the
per-system scale factors beta from (1,1,1) to (2,1,1) changes the TC
estimates ([1/8, 4/5, -1] versus [0, 4/7, 0]), so exact beta-invariance
fails on finite samples. -/
theorem tc_covar_beta_dependence :
    tc_covar (genArr (fun _ => 0) (fun _ => 1) tCx eCx 3) ≠
      tc_covar (genArr (fun _ => 0) (fun i => if i = 0 then 2 else 1) tCx eCx 3) := by
  have h1 : tc_covar (genArr (fun _ => 0) (fun _ => 1) tCx eCx 3) =
      Except.ok [EFloat.fin (1/8), EFloat.fin (4/5), EFloat.fin (-1)] := by
    norm_num [tc_covar, genArr, tCx, eCx, covE, cSum, meanQ, col,
      Finset.sum_range_succ, List.getD, getD_map_range,
      EFloat.div_fin_fin, EFloat.fin_div_fin, EFloat.fin_sub_fin, EFloat.fin_mul_fin]
  have h2 : tc_covar (genArr (fun _ => 0) (fun i => if i = 0 then 2 else 1) tCx eCx 3) =
      Except.ok [EFloat.fin 0, EFloat.fin (4/7), EFloat.fin 0] := by
    norm_num [tc_covar, genArr, tCx, eCx, covE, cSum, meanQ, col,
      Finset.sum_range_succ, List.getD, getD_map_range,
      EFloat.div_fin_fin, EFloat.fin_div_fin, EFloat.fin_sub_fin, EFloat.fin_mul_fin]
  rw [h1, h2]
  intro hEq
  simp only [Except.ok.injEq, List.cons.injEq, EFloat.fin.injEq] at hEq
  norm_num at hEq

/-- C8 (amended): adding per-system constants never changes the TC output
(for any valid input array); the estimates are additionally independent of
the per-system scale factors `beta` (and of `alpha`) whenever the sample
itself satisfies the TC orthogonality assumptions exactly — the signal is
empirically uncorrelated with each error series, the error series are
empirically uncorrelated with each other, the signal has nonzero sample
variance, and the scale factors are nonzero.  (Exact beta-invariance for
arbitrary finite samples is refuted by `tc_covar_beta_dependence`.) -/
theorem tc_covar_affine_invariance :
    (∀ (A : NDArray) (N : ℕ) (a : ℕ → ℚ), A.shape = [N, 3] →
      A.data.length = N * 3 → 0 < N →
      tc_covar (addConst3 A a) = tc_covar A) ∧
    (∀ (N : ℕ) (t : ℕ → ℚ) (e : ℕ → ℕ → ℚ) (alph bet : ℕ → ℚ), 2 ≤ N →
      cSum N t (fun n => e n 0) = 0 → cSum N t (fun n => e n 1) = 0 →
      cSum N t (fun n => e n 2) = 0 →
      cSum N (fun n => e n 0) (fun n => e n 1) = 0 →
      cSum N (fun n => e n 0) (fun n => e n 2) = 0 →
      cSum N (fun n => e n 1) (fun n => e n 2) = 0 →
      cSum N t t ≠ 0 → bet 0 ≠ 0 → bet 1 ≠ 0 → bet 2 ≠ 0 →
      tc_covar (genArr alph bet t e N) = Except.ok
        [ EFloat.fin (covQ N (fun n => e n 0) (fun n => e n 0)),
          EFloat.fin (covQ N (fun n => e n 1) (fun n => e n 1)),
          EFloat.fin (covQ N (fun n => e n 2) (fun n => e n 2)) ]) :=
  ⟨fun A N a h hwf hN => tc_covar_addConst3 A N a h hwf hN,
   fun N t e alph bet hN ht0 ht1 ht2 he01 he02 he12 hs hb0 hb1 hb2 =>
     tc_covar_genArr N t e alph bet hN ht0 ht1 ht2 he01 he02 he12 hs hb0 hb1 hb2⟩

/-- Signal of the C8 witness: deviations (1, -1, 0, 0, 0). -/
def tW : ℕ → ℚ := fun n => [1, -1, 0, 0, 0].getD n 0

/-- Errors of the C8 witness: three mean-zero series, each orthogonal to
the signal and to the others. -/
def eW : ℕ → ℕ → ℚ := fun n i =>
  ([[0, 1, 1], [0, 1, 1], [1, -1, 1], [-1, -1, 1], [0, 0, -4]].getD n []).getD i 0

/-- Witness for C8 at concrete inputs: a constant shift of `arrNeg`, and a
5-sample exactly-orthogonal design with alpha = (0,1,2), beta = (1,2,3). -/
theorem tc_covar_affine_invariance_witness :
    tc_covar (addConst3 arrNeg (fun i => (i : ℚ) + 7)) = tc_covar arrNeg ∧
    tc_covar (genArr (fun i => (i : ℚ)) (fun i => (i : ℚ) + 1) tW eW 5) = Except.ok
      [ EFloat.fin (covQ 5 (fun n => eW n 0) (fun n => eW n 0)),
        EFloat.fin (covQ 5 (fun n => eW n 1) (fun n => eW n 1)),
        EFloat.fin (covQ 5 (fun n => eW n 2) (fun n => eW n 2)) ] :=
  ⟨tc_covar_affine_invariance.1 arrNeg 4 (fun i => (i : ℚ) + 7) rfl
      (by norm_num [arrNeg]) (by norm_num),
   tc_covar_affine_invariance.2 5 tW eW (fun i => (i : ℚ)) (fun i => (i : ℚ) + 1)
     (by norm_num)
     (by norm_num [cSum, meanQ, tW, eW, Finset.sum_range_succ, List.getD])
     (by norm_num [cSum, meanQ, tW, eW, Finset.sum_range_succ, List.getD])
     (by norm_num [cSum, meanQ, tW, eW, Finset.sum_range_succ, List.getD])
     (by norm_num [cSum, meanQ, tW, eW, Finset.sum_range_succ, List.getD])
     (by norm_num [cSum, meanQ, tW, eW, Finset.sum_range_succ, List.getD])
     (by norm_num [cSum, meanQ, tW, eW, Finset.sum_range_succ, List.getD])
     (by norm_num [cSum, meanQ, tW, eW, Finset.sum_range_succ, List.getD])
     (by norm_num) (by norm_num) (by norm_num)⟩

/-- Modelled from the spec: the helper-system choice of the EC solver
(`ec_covar` lives in `TC/EC_function.ipynb`, which is not among the source
files).  For row `i`, pick the helper `k` as the lowest-index system whose
correlation group differs from `i`'s — the deterministic lowest-index
tie-break the spec's design notes prescribe. -/
def pickK (corr : List ℕ) (M i : ℕ) : ℕ :=
  List.findIdx (fun k => corr.getD k 0 != corr.getD i 0) (List.range M)

/-- Modelled from the spec: the second helper of the EC solver — the
lowest-index system whose group differs both from column `j`'s group and
from helper `k`'s group, so that (k, l) are mutually independent. -/
def pickL (corr : List ℕ) (M j k : ℕ) : ℕ :=
  List.findIdx (fun x => corr.getD x 0 != corr.getD j 0 &&
    corr.getD x 0 != corr.getD k 0) (List.range M)

/-- Modelled from the spec: `ec_covar`, the Extended Collocation solver
(its source notebook `TC/EC_function.ipynb` is not among the source
files).  It validates that the input is rank-2, that `corr_sets` assigns
a group to each of the M systems and spans at least 3 distinct groups,
then returns the M x M estimated error covariance matrix with entries
sigma_ij - (sigma_ik * sigma_jl) / sigma_kl over the sample covariance,
with helpers (k, l) chosen per `pickK`/`pickL`. -/
def ec_covar (A : NDArray) (corr : List ℕ) : Except String (List (List EFloat)) :=
  if A.shape.length ≠ 2 then
    Except.error "X must be a 2D array input."
  else if corr.length ≠ A.shape.getD 1 0 then
    Except.error "corr_sets must assign a group label to every system."
  else if corr.dedup.length < 3 then
    Except.error "at least 3 distinct correlation groups are required."
  else
    let N := A.shape.getD 0 0
    let M := A.shape.getD 1 0
    let c := fun i j => covE N (col A M i) (col A M j)
    Except.ok ((List.range M).map fun i => (List.range M).map fun j =>
      let k := pickK corr M i
      let x := pickL corr M j k
      c i j - c i k * c j x / c k x)

/-- The diagonal of a 3 x 3 matrix given as nested lists. -/
def diag3 (m : List (List EFloat)) : List EFloat :=
  [ (m.getD 0 []).getD 0 EFloat.nan,
    (m.getD 1 []).getD 1 EFloat.nan,
    (m.getD 2 []).getD 2 EFloat.nan ]

/-- On a rank-2 input with a valid grouping, `ec_covar` returns the matrix
of EC closed-form entries. -/
theorem ec_covar_ok (B : NDArray) (corr : List ℕ) (N M : ℕ) (hB : B.shape = [N, M])
    (hc : corr.length = M) (hg : 3 ≤ corr.dedup.length) :
    ec_covar B corr = Except.ok ((List.range M).map fun i => (List.range M).map fun j =>
      covE N (col B M i) (col B M j) -
        covE N (col B M i) (col B M (pickK corr M i)) *
          covE N (col B M j) (col B M (pickL corr M j (pickK corr M i))) /
        covE N (col B M (pickK corr M i)) (col B M (pickL corr M j (pickK corr M i)))) := by
  unfold ec_covar
  rw [hB]
  rw [if_neg (by simp), if_neg (by simp [hc]), if_neg (by omega)]
  rfl

/-- C6: on every rank-2 3-column input, the diagonal of the EC error
covariance matrix with all-singleton groups (three pairwise distinct
labels) equals the TC estimate vector — exactly, entry for entry. -/
theorem ec_covar_diag_eq_tc (A : NDArray) (N : ℕ) (a b c : ℕ)
    (h : A.shape = [N, 3]) (hab : a ≠ b) (hac : a ≠ c) (hbc : b ≠ c) :
    Except.map diag3 (ec_covar A [a, b, c]) = tc_covar A := by
  have hba : (b != a) = true := bne_iff_ne.mpr (Ne.symm hab)
  have hca : (c != a) = true := bne_iff_ne.mpr (Ne.symm hac)
  have hcb : (c != b) = true := bne_iff_ne.mpr (Ne.symm hbc)
  have habt : (a != b) = true := bne_iff_ne.mpr hab
  have hact : (a != c) = true := bne_iff_ne.mpr hac
  have hbct : (b != c) = true := bne_iff_ne.mpr hbc
  have hr : List.range 3 = [0, 1, 2] := rfl
  have hKa : pickK [a, b, c] 3 0 = 1 := by
    simp [pickK, hr, List.findIdx_cons, hba]
  have hKb : pickK [a, b, c] 3 1 = 0 := by
    simp [pickK, hr, List.findIdx_cons, habt]
  have hKc : pickK [a, b, c] 3 2 = 0 := by
    simp [pickK, hr, List.findIdx_cons, hact]
  have hLa : pickL [a, b, c] 3 0 1 = 2 := by
    simp [pickL, hr, List.findIdx_cons, hca, hcb]
  have hLb : pickL [a, b, c] 3 1 0 = 2 := by
    simp [pickL, hr, List.findIdx_cons, hca, hcb, habt]
  have hLc : pickL [a, b, c] 3 2 0 = 1 := by
    simp [pickL, hr, List.findIdx_cons, hba, hbct, hact]
  have hdedup : [a, b, c].dedup = [a, b, c] := by
    rw [List.dedup_cons_of_not_mem (by simp [hab, hac]),
      List.dedup_cons_of_not_mem (by simp [hbc])]
    rfl
  rw [tc_covar_ok A N h]
  rw [ec_covar_ok A [a, b, c] N 3 h rfl (by rw [hdedup]; simp)]
  simp only [Except.map]
  unfold diag3
  rw [getD_map_range ([] : List EFloat) 3 0 _ (by norm_num),
    getD_map_range ([] : List EFloat) 3 1 _ (by norm_num),
    getD_map_range ([] : List EFloat) 3 2 _ (by norm_num),
    getD_map_range EFloat.nan 3 0 _ (by norm_num),
    getD_map_range EFloat.nan 3 1 _ (by norm_num),
    getD_map_range EFloat.nan 3 2 _ (by norm_num)]
  rw [hKa, hKb, hKc, hLa, hLb, hLc]
  rw [covE_symm N (col A 3 1) (col A 3 0), covE_symm N (col A 3 2) (col A 3 0),
    covE_symm N (col A 3 2) (col A 3 1)]

/-- Witness for C6 at `arrNeg` with singleton groups 0, 1, 2. -/
theorem ec_covar_diag_eq_tc_witness :
    Except.map diag3 (ec_covar arrNeg [0, 1, 2]) = tc_covar arrNeg :=
  ec_covar_diag_eq_tc arrNeg 4 0 1 2 rfl (by decide) (by decide) (by decide)

theorem exists_ne_label (corr : List ℕ) (v : ℕ) (h3 : 3 ≤ corr.dedup.length) :
    ∃ x ∈ corr, x ≠ v := by
  by_contra hall
  push_neg at hall
  have hsub : corr.dedup.toFinset ⊆ {v} := by
    intro x hx
    rw [List.mem_toFinset, List.mem_dedup] at hx
    simp [hall x hx]
  have hcard : corr.dedup.toFinset.card ≤ 1 :=
    le_trans (Finset.card_le_card hsub) (by simp)
  rw [List.toFinset_card_of_nodup corr.nodup_dedup] at hcard
  omega

theorem exists_ne_two_labels (corr : List ℕ) (v w : ℕ) (h3 : 3 ≤ corr.dedup.length) :
    ∃ x ∈ corr, x ≠ v ∧ x ≠ w := by
  by_contra hall
  push_neg at hall
  have hsub : corr.dedup.toFinset ⊆ {v, w} := by
    intro x hx
    rw [List.mem_toFinset, List.mem_dedup] at hx
    rcases em (x = v) with hv | hv
    · simp [hv]
    · simp [hall x hx hv]
  have hcard : corr.dedup.toFinset.card ≤ 2 :=
    le_trans (Finset.card_le_card hsub) (Finset.card_insert_le v {w} |>.trans (by simp))
  rw [List.toFinset_card_of_nodup corr.nodup_dedup] at hcard
  omega

/-- When at least 3 distinct groups exist, a valid first helper is always
found below `M`. -/
theorem pickK_lt (corr : List ℕ) (M i : ℕ) (hM : corr.length = M)
    (h3 : 3 ≤ corr.dedup.length) : pickK corr M i < M := by
  unfold pickK
  have hlen : (List.range M).length = M := List.length_range M
  refine lt_of_lt_of_le (List.findIdx_lt_length_of_exists ?_) (le_of_eq hlen)
  obtain ⟨y, hy, hyne⟩ := exists_ne_label corr (corr.getD i 0) h3
  obtain ⟨n, hn, hval⟩ := List.mem_iff_getElem.mp hy
  refine ⟨n, List.mem_range.mpr (hM ▸ hn), ?_⟩
  rw [List.getD_eq_getElem corr 0 hn, hval]
  exact bne_iff_ne.mpr hyne

/-- When at least 3 distinct groups exist, a valid second helper is always
found below `M`. -/
theorem pickL_lt (corr : List ℕ) (M j k : ℕ) (hM : corr.length = M)
    (h3 : 3 ≤ corr.dedup.length) : pickL corr M j k < M := by
  unfold pickL
  have hlen : (List.range M).length = M := List.length_range M
  refine lt_of_lt_of_le (List.findIdx_lt_length_of_exists ?_) (le_of_eq hlen)
  obtain ⟨y, hy, hyv, hyw⟩ :=
    exists_ne_two_labels corr (corr.getD j 0) (corr.getD k 0) h3
  obtain ⟨n, hn, hval⟩ := List.mem_iff_getElem.mp hy
  refine ⟨n, List.mem_range.mpr (hM ▸ hn), ?_⟩
  rw [Bool.and_eq_true, List.getD_eq_getElem corr 0 hn, hval]
  exact ⟨bne_iff_ne.mpr hyv, bne_iff_ne.mpr hyw⟩

/-- Recovering the multi-index (i, j, p) from the C-order flat offset
`(i*M + j)*P + p` of an (M, M, P) array. -/
theorem flat_decode (M P i j p : ℕ) (hj : j < M) (hp : p < P) :
    ((i * M + j) * P + p) / (M * P) = i ∧
    ((i * M + j) * P + p) / P % M = j ∧
    ((i * M + j) * P + p) % P = p := by
  have hP : 0 < P := Nat.pos_of_ne_zero (by omega)
  have hMP : 0 < M * P := Nat.mul_pos (by omega) hP
  have hq1 : (i * M + j) * P + p = (j * P + p) + (M * P) * i := by ring
  have hq2 : (i * M + j) * P + p = p + P * (i * M + j) := by ring
  have hsmall : j * P + p < M * P := by
    calc j * P + p < j * P + P := by omega
    _ = (j + 1) * P := by ring
    _ ≤ M * P := Nat.mul_le_mul_right P (by omega)
  refine ⟨?_, ?_, ?_⟩
  · rw [hq1, Nat.add_mul_div_left _ _ hMP, Nat.div_eq_of_lt hsmall]
    omega
  · rw [hq2, Nat.add_mul_div_left _ _ hP, Nat.div_eq_of_lt hp]
    have hz : 0 + (i * M + j) = j + M * i := by ring
    rw [hz, Nat.add_mul_mod_self_left j M i, Nat.mod_eq_of_lt hj]
  · rw [hq2, Nat.add_mul_mod_self_left p P (i * M + j), Nat.mod_eq_of_lt hp]

/-- A numpy `ndarray` of floating-point values (used for the batched
driver's output, whose entries may be non-finite). -/
structure NDArrayE where
  shape : List ℕ
  data : List EFloat
deriving DecidableEq

/-- The (N, M) slice of an (N, M, ...extra...) array at flattened
trailing index `p`: in C order the element (n, m, p) of the input sits
at offset `(n*M + m) * P + p` with `P` the product of the trailing
dimensions. -/
def sliceND (A : NDArray) (p : ℕ) : NDArray :=
  ⟨[A.shape.getD 0 0, A.shape.getD 1 0],
    (List.range (A.shape.getD 0 0 * A.shape.getD 1 0)).map fun q =>
      A.data.getD (q * (A.shape.drop 2).prod + p) 0⟩

/-- Modelled from the spec: `ec_covar_multi`, the batched EC driver (its
source notebook `TC/EC_function.ipynb` is not among the source files).
It accepts an (N, M, ...extra...) array, checks the same grouping
preconditions as the scalar solver, and produces the (M, M, ...extra...)
array whose (i, j, p) entry is the EC estimate computed from the sample
covariances of the (N, M) slice at trailing index p — one vectorized
pass over the flat C-order output buffer. -/
def ec_covar_multi (A : NDArray) (corr : List ℕ) : Except String NDArrayE :=
  if A.shape.length < 2 then
    Except.error "X must be at least a 2D array input."
  else if corr.length ≠ A.shape.getD 1 0 then
    Except.error "corr_sets must assign a group label to every system."
  else if corr.dedup.length < 3 then
    Except.error "at least 3 distinct correlation groups are required."
  else
    let N := A.shape.getD 0 0
    let M := A.shape.getD 1 0
    let P := (A.shape.drop 2).prod
    let cP := fun p i j =>
      covE N (fun n => A.data.getD ((n * M + i) * P + p) 0)
        (fun n => A.data.getD ((n * M + j) * P + p) 0)
    Except.ok ⟨M :: M :: A.shape.drop 2,
      (List.range (M * M * P)).map fun q =>
        cP (q % P) (q / (M * P)) (q / P % M) -
          cP (q % P) (q / (M * P)) (pickK corr M (q / (M * P))) *
            cP (q % P) (q / P % M) (pickL corr M (q / P % M) (pickK corr M (q / (M * P)))) /
          cP (q % P) (pickK corr M (q / (M * P)))
            (pickL corr M (q / P % M) (pickK corr M (q / (M * P))))⟩

theorem col_sliceND (A : NDArray) (N M : ℕ) (rest : List ℕ) (h : A.shape = N :: M :: rest)
    (p y n : ℕ) (hy : y < M) (hn : n < N) :
    col (sliceND A p) M y n = A.data.getD ((n * M + y) * rest.prod + p) 0 := by
  unfold col sliceND
  rw [h]
  simp only [List.getD_cons_zero, List.getD_cons_succ]
  have hdrop : (N :: M :: rest).drop 2 = rest := rfl
  rw [hdrop, getD_map_range]
  have hstep : (n + 1) * M = n * M + M := by ring
  calc n * M + y < (n + 1) * M := by omega
  _ ≤ N * M := Nat.mul_le_mul_right M (by omega)

/-- On a rank >= 2 input with a valid grouping, the batched driver returns
the flat (M, M, ...extra...) buffer of EC entries. -/
theorem ec_covar_multi_ok (A : NDArray) (corr : List ℕ) (N M : ℕ) (rest : List ℕ)
    (h : A.shape = N :: M :: rest) (hc : corr.length = M) (hg : 3 ≤ corr.dedup.length) :
    ec_covar_multi A corr = Except.ok ⟨M :: M :: rest,
      (List.range (M * M * rest.prod)).map fun q =>
        covE N (fun n => A.data.getD ((n * M + q / (M * rest.prod)) * rest.prod + q % rest.prod) 0)
            (fun n => A.data.getD ((n * M + q / rest.prod % M) * rest.prod + q % rest.prod) 0) -
          covE N (fun n => A.data.getD ((n * M + q / (M * rest.prod)) * rest.prod + q % rest.prod) 0)
              (fun n => A.data.getD ((n * M + pickK corr M (q / (M * rest.prod))) * rest.prod + q % rest.prod) 0) *
            covE N (fun n => A.data.getD ((n * M + q / rest.prod % M) * rest.prod + q % rest.prod) 0)
              (fun n => A.data.getD ((n * M + pickL corr M (q / rest.prod % M) (pickK corr M (q / (M * rest.prod)))) * rest.prod + q % rest.prod) 0) /
          covE N (fun n => A.data.getD ((n * M + pickK corr M (q / (M * rest.prod))) * rest.prod + q % rest.prod) 0)
            (fun n => A.data.getD ((n * M + pickL corr M (q / rest.prod % M) (pickK corr M (q / (M * rest.prod)))) * rest.prod + q % rest.prod) 0)⟩ := by
  unfold ec_covar_multi
  rw [h]
  rw [if_neg (by simp), if_neg (by simp [hc]), if_neg (by omega)]
  rfl

/-- C7: the batched driver computes each slice independently: for every
(N, M, ...extra...) input and valid grouping, the output has shape
(M, M, ...extra...) and its (i, j) entry at any fixed trailing index p
equals the (i, j) entry of the scalar EC solver applied to the (N, M)
slice at p alone — no cross-slice leakage. -/
theorem ec_covar_multi_slice (A : NDArray) (corr : List ℕ) (N M : ℕ) (rest : List ℕ)
    (h : A.shape = N :: M :: rest)
    (hc : corr.length = M) (hg : 3 ≤ corr.dedup.length)
    (i j p : ℕ) (hi : i < M) (hj : j < M) (hp : p < rest.prod) :
    Except.map NDArrayE.shape (ec_covar_multi A corr) = Except.ok (M :: M :: rest) ∧
    Except.map (fun B => B.data.getD ((i * M + j) * rest.prod + p) EFloat.nan)
        (ec_covar_multi A corr) =
      Except.map (fun m => (m.getD i []).getD j EFloat.nan)
        (ec_covar (sliceND A p) corr) := by
  have hslice : (sliceND A p).shape = [N, M] := by
    unfold sliceND
    rw [h]
    rfl
  rw [ec_covar_multi_ok A corr N M rest h hc hg,
    ec_covar_ok (sliceND A p) corr N M hslice hc hg]
  constructor
  · rfl
  · simp only [Except.map]
    have h1 : i * M + j < M * M := by
      calc i * M + j < i * M + M := by omega
      _ = (i + 1) * M := by ring
      _ ≤ M * M := Nat.mul_le_mul_right M (by omega)
    have hq0 : (i * M + j) * rest.prod + p < M * M * rest.prod := by
      calc (i * M + j) * rest.prod + p
          < (i * M + j) * rest.prod + rest.prod := by omega
      _ = (i * M + j + 1) * rest.prod := by ring
      _ ≤ M * M * rest.prod := Nat.mul_le_mul_right rest.prod (by omega)
    rw [getD_map_range EFloat.nan (M * M * rest.prod) ((i * M + j) * rest.prod + p) _ hq0]
    rw [getD_map_range ([] : List EFloat) M i _ hi]
    rw [getD_map_range EFloat.nan M j _ hj]
    obtain ⟨d1, d2, d3⟩ := flat_decode M rest.prod i j p hj hp
    rw [d1, d2, d3]
    have hk : pickK corr M i < M := pickK_lt corr M i hc hg
    have hx : pickL corr M j (pickK corr M i) < M :=
      pickL_lt corr M j (pickK corr M i) hc hg
    rw [covE_congr N (col (sliceND A p) M i)
        (fun n => A.data.getD ((n * M + i) * rest.prod + p) 0)
        (col (sliceND A p) M j)
        (fun n => A.data.getD ((n * M + j) * rest.prod + p) 0)
        (fun n hn => col_sliceND A N M rest h p i n hi hn)
        (fun n hn => col_sliceND A N M rest h p j n hj hn)]
    rw [covE_congr N (col (sliceND A p) M i)
        (fun n => A.data.getD ((n * M + i) * rest.prod + p) 0)
        (col (sliceND A p) M (pickK corr M i))
        (fun n => A.data.getD ((n * M + pickK corr M i) * rest.prod + p) 0)
        (fun n hn => col_sliceND A N M rest h p i n hi hn)
        (fun n hn => col_sliceND A N M rest h p (pickK corr M i) n hk hn)]
    rw [covE_congr N (col (sliceND A p) M j)
        (fun n => A.data.getD ((n * M + j) * rest.prod + p) 0)
        (col (sliceND A p) M (pickL corr M j (pickK corr M i)))
        (fun n => A.data.getD ((n * M + pickL corr M j (pickK corr M i)) * rest.prod + p) 0)
        (fun n hn => col_sliceND A N M rest h p j n hj hn)
        (fun n hn => col_sliceND A N M rest h p (pickL corr M j (pickK corr M i)) n hx hn)]
    rw [covE_congr N (col (sliceND A p) M (pickK corr M i))
        (fun n => A.data.getD ((n * M + pickK corr M i) * rest.prod + p) 0)
        (col (sliceND A p) M (pickL corr M j (pickK corr M i)))
        (fun n => A.data.getD ((n * M + pickL corr M j (pickK corr M i)) * rest.prod + p) 0)
        (fun n hn => col_sliceND A N M rest h p (pickK corr M i) n hk hn)
        (fun n hn => col_sliceND A N M rest h p (pickL corr M j (pickK corr M i)) n hx hn)]

/-- A concrete (2, 3, 2) input: 2 samples, 3 systems, 2 pixels. -/
def arrMulti : NDArray := ⟨[2, 3, 2], [1, 2, 3, 4, 5, 6, 7, 8, 9, 10, 11, 12]⟩

/-- Witness for C7 at `arrMulti`, entry (1, 2) of pixel 1. -/
theorem ec_covar_multi_slice_witness :
    Except.map NDArrayE.shape (ec_covar_multi arrMulti [0, 1, 2]) =
      Except.ok (3 :: 3 :: [2]) ∧
    Except.map (fun B => B.data.getD ((1 * 3 + 2) * [2].prod + 1) EFloat.nan)
        (ec_covar_multi arrMulti [0, 1, 2]) =
      Except.map (fun m => (m.getD 1 []).getD 2 EFloat.nan)
        (ec_covar (sliceND arrMulti 1) [0, 1, 2]) :=
  ec_covar_multi_slice arrMulti [0, 1, 2] 2 3 [2] rfl rfl (by decide) 1 2 1
    (by decide) (by decide) (by decide)
